import Mathlib

set_option autoImplicit false

namespace XK6Mongo

/-- Model of a Go `any` value as it can reach the option-normalization and
update-preparation code of the extension. Each constructor mirrors one of the
dynamic types that the Go type switches in `normalizeKeys`,
`prepareUpdateDocument`, `updateDocumentHasOperator` and `isPipelineUpdate`
dispatch on: the untyped interface `nil`, scalars, the ordered document type
`bson.D` (a list of key/value pairs), the unordered map types `bson.M` and
`map[string]any` (modelled as association lists with pairwise-distinct keys,
which every Go map has), the generic array `bson.A`, the three slice types
named in `isPipelineUpdate`, a slice of any other static element type (for
example `[]string`, which matches none of the named slice cases in a Go type
switch), and a struct value (whose BSON serialization is a document given by
its field list). -/
inductive GoValue where
  | vnil
  | vstr (s : String)
  | vint (n : Int)
  | vbool (b : Bool)
  | bsonD (elems : List (String × GoValue))
  | bsonM (entries : List (String × GoValue))
  | goMap (entries : List (String × GoValue))
  | bsonA (elems : List GoValue)
  | sliceD (elems : List (List (String × GoValue)))
  | sliceM (elems : List (List (String × GoValue)))
  | sliceAny (elems : List GoValue)
  | sliceOther (elems : List GoValue)
  | structVal (fields : List (String × GoValue))

/-- Translation of the separator predicate given to `strings.FieldsFunc` in
`toPascalCase`: underscore, hyphen and space are the only separators. -/
def isSepChar (c : Char) : Bool :=
  c == '_' || c == '-' || c == ' '

/-- Accumulator-based translation of Go `strings.FieldsFunc`: splits the
character list at separator runs, never emitting an empty segment. The first
argument is the (reversed) run of non-separator characters read so far. -/
def fieldsAux : List Char → List Char → List (List Char)
  | acc, [] =>
    match acc with
    | [] => []
    | _ => [acc.reverse]
  | acc, c :: rest =>
    if isSepChar c then
      match acc with
      | [] => fieldsAux [] rest
      | _ => acc.reverse :: fieldsAux [] rest
    else
      fieldsAux (c :: acc) rest

/-- Go `strings.FieldsFunc(s, isSep)` on a character list. -/
def fieldsChars (cs : List Char) : List (List Char) :=
  fieldsAux [] cs

/-- Translation of the package-level `knownAcronyms` map literal. -/
def knownAcronyms : List (String × String) :=
  [("api", "API"), ("id", "ID"), ("uri", "URI"), ("tls", "TLS"), ("ocsp", "OCSP")]

/-- Go map lookup `knownAcronyms[s]` (keys of the literal are distinct, so
association-list lookup agrees with Go map indexing). -/
def lookupAcronym (s : String) : Option String :=
  (knownAcronyms.find? (fun p => p.1 == s)).map (fun p => p.2)

/-- Body of the per-segment loop in `toPascalCase`: lowercase the segment,
replace it by its acronym form if the whole lowercased segment is a table
entry, otherwise capitalize the first character of the lowercased segment.
`Char.toLower`/`Char.toUpper` model Go `strings.ToLower`/`ToUpper` on the
ASCII range, which covers every option key and table entry. -/
def processSegment (seg : List Char) : List Char :=
  let lower := seg.map Char.toLower
  match lookupAcronym (String.mk lower) with
  | some repl => repl.data
  | none =>
    match lower with
    | [] => seg
    | c :: cs => Char.toUpper c :: cs

/-- Translation of `toPascalCase` on a character list: the early return for
the empty input, then `strings.FieldsFunc`, the per-segment loop, and
`strings.Join(segments, "")` (concatenation). -/
def toPascalCaseChars (input : List Char) : List Char :=
  match input with
  | [] => []
  | cs => List.flatten ((fieldsChars cs).map processSegment)

/-- Go `toPascalCase` on strings. -/
def toPascalCase (s : String) : String :=
  String.mk (toPascalCaseChars s.data)

/-- Translation of `strings.HasPrefix(key, "$")`: the key is nonempty and its
first character is a dollar sign. -/
def startsWithDollar (key : String) : Bool :=
  match key.data with
  | [] => false
  | c :: _ => c == '$'

/-- Translation of `hasOperatorInKeysD`: some element key begins with `$`. -/
def hasOperatorInKeysD (d : List (String × GoValue)) : Bool :=
  d.any fun elem => startsWithDollar elem.1

/-- Translation of `hasOperatorInKeysM`: some key begins with `$`. -/
def hasOperatorInKeysM (m : List (String × GoValue)) : Bool :=
  m.any fun kv => startsWithDollar kv.1

/-- Translation of `hasOperatorInKeysMap`: some key begins with `$`. -/
def hasOperatorInKeysMap (m : List (String × GoValue)) : Bool :=
  m.any fun kv => startsWithDollar kv.1

/-- Translation of `updateDocumentHasOperator`: dispatch on the dynamic type;
only `bson.D`, `bson.M` and `map[string]any` are inspected, everything else
(slices, scalars, structs, nil) falls through to `false`. -/
def updateDocumentHasOperator : GoValue → Bool
  | .bsonD elems => hasOperatorInKeysD elems
  | .bsonM entries => hasOperatorInKeysM entries
  | .goMap entries => hasOperatorInKeysMap entries
  | _ => false

/-- Translation of `isPipelineUpdate`: the type switch matches exactly the
dynamic types `[]bson.D`, `[]bson.M`, `[]any` and `bson.A`; every other
dynamic type (including slices of other element types such as `[]string`,
which is `sliceOther` here) falls through to `false`. -/
def isPipelineUpdate : GoValue → Bool
  | .sliceD _ => true
  | .sliceM _ => true
  | .sliceAny _ => true
  | .bsonA _ => true
  | _ => false

/-- Error taxonomy of the update-preparation subsystem, following the spec
names for the two `fmt.Errorf` sites in `prepareUpdateDocument`:
`invalidArgument` for the nil check and `serializationError` for a failed
marshal/unmarshal round-trip. The carried string is the error message (for
the wrapped errors, the constant part before the wrapped driver error). -/
inductive PrepError where
  | invalidArgument (msg : String)
  | serializationError (msg : String)
deriving DecidableEq, Repr

/-- Model of the external `bson.Marshal` + `bson.Unmarshal` round-trip used by
the default arm of `prepareUpdateDocument`: marshaling succeeds exactly for
document-shaped top-level values. Of the dynamic types that can reach the
default arm (scalars, `[]string`-like slices, structs), only a struct is
document-shaped; its BSON document is its field list. Top-level scalars and
slices of unregistered element types cannot be encoded as a BSON document and
make `bson.Marshal` fail. Unmarshaling bytes produced by a successful marshal
into a generic `bson.M` never fails and is modelled as the identity on the
field list. -/
def bsonMarshalDoc : GoValue → Option (List (String × GoValue))
  | .structVal fields => some fields
  | _ => none

/-- Translation of `prepareUpdateDocument`: nil check, pass-through for
pipelines and operator documents, `$set`-wrapping per dynamic type, and the
marshal/unmarshal fallback for every other type. -/
def prepareUpdateDocument (data : GoValue) : Except PrepError GoValue :=
  match data with
  | .vnil => .error (.invalidArgument "update document cannot be nil")
  | d =>
    if isPipelineUpdate d || updateDocumentHasOperator d then .ok d
    else
      match d with
      | .bsonD elems => .ok (.bsonD [("$set", .bsonD elems)])
      | .bsonM entries => .ok (.bsonM [("$set", .bsonM entries)])
      | .goMap entries => .ok (.bsonM [("$set", .goMap entries)])
      | .bsonA elems => .ok (.bsonM [("$set", .bsonA elems)])
      | other =>
        match bsonMarshalDoc other with
        | some generic => .ok (.bsonM [("$set", .bsonM generic)])
        | none => .error (.serializationError "failed to marshal update document")

/-- Go map assignment `out[k] = v` on the association-list model of a Go map:
replace the entry whose key is `k` if present, otherwise append a new entry. -/
def mapInsert (k : String) (v : GoValue) : List (String × GoValue) → List (String × GoValue)
  | [] => [(k, v)]
  | (k', v') :: rest => if k' == k then (k, v) :: rest else (k', v') :: mapInsert k v rest

/-- The `out := make(map[string]any); for ... ; out[key] = val` loop of
`normalizeKeys`, after the keys and values of the input entries have already
been rewritten: build the output map by successive Go map assignments. Go map
iteration order is unspecified; the model iterates in list order. -/
def buildMap (pairs : List (String × GoValue)) : List (String × GoValue) :=
  pairs.foldl (fun acc kv => mapInsert kv.1 kv.2 acc) []

mutual

/-- Translation of `normalizeKeys`: for `map[string]any` and `bson.M` build a
fresh `map[string]any` whose keys are rewritten by `toPascalCase` and whose
values are normalized recursively; for `[]any` normalize the elements; every
other dynamic type (including `bson.D`, `bson.A` and other slices) hits the
default arm and is returned unchanged. -/
def normalizeKeys : GoValue → GoValue
  | .goMap entries => .goMap (buildMap (normalizePairs entries))
  | .bsonM entries => .goMap (buildMap (normalizePairs entries))
  | .sliceAny elems => .sliceAny (normalizeElems elems)
  | v => v

/-- Key/value rewriting step of the `normalizeKeys` map loop. -/
def normalizePairs : List (String × GoValue) → List (String × GoValue)
  | [] => []
  | (k, v) :: rest => (toPascalCase k, normalizeKeys v) :: normalizePairs rest

/-- Element rewriting step of the `normalizeKeys` `[]any` loop. -/
def normalizeElems : List GoValue → List GoValue
  | [] => []
  | v :: rest => normalizeKeys v :: normalizeElems rest

end

/-- Lookup of a key in a (map-modelling) association list, used to state the
round-trip law: `getKey m k` is the value stored under `k`. -/
def getKey (m : List (String × GoValue)) (k : String) : Option GoValue :=
  (m.find? (fun kv => kv.1 == k)).map (fun kv => kv.2)

/-- Follows the spec text for `isPipelineUpdate`: "the value's runtime shape
is a sequence of document-like elements (any array/slice-shaped container,
regardless of element type)". Every slice/array-shaped constructor of the
model qualifies, including a slice of an element type not named in the code's
type switch. -/
def isSequenceShape : GoValue → Bool
  | .bsonA _ => true
  | .sliceD _ => true
  | .sliceM _ => true
  | .sliceAny _ => true
  | .sliceOther _ => true
  | _ => false

/-- Follows the spec text for `updateDocumentHasOperator`: the value is a
string-keyed map or an ordered key-value sequence and at least one top-level
key begins with `$`. -/
def specHasTopLevelOperator : GoValue → Bool
  | .bsonD elems => elems.any fun kv => startsWithDollar kv.1
  | .bsonM entries => entries.any fun kv => startsWithDollar kv.1
  | .goMap entries => entries.any fun kv => startsWithDollar kv.1
  | _ => false

/-- Follows the spec text "PascalCase key": nonempty, first character an
uppercase ASCII letter, and containing only ASCII letters (in particular no
separator characters). -/
def isPascalCaseKey (s : String) : Bool :=
  match s.data with
  | [] => false
  | c :: cs => c.isUpper && (c :: cs).all Char.isAlpha

/-- Pairwise distinctness of the keys of an association list, the invariant
every Go map satisfies. -/
def distinctKeys : List (String × GoValue) → Bool
  | [] => true
  | kv :: rest => rest.all (fun kv' => !(kv'.1 == kv.1)) && distinctKeys rest

mutual

/-- Fully-normalized form: a `map[string]any` whose keys are pairwise
distinct and fixed by `toPascalCase`, with recursively fully-normalized
values; a `[]any` of fully-normalized elements; any value `normalizeKeys`
leaves untouched. A `bson.M` is never in this form because `normalizeKeys`
rebuilds it as a `map[string]any`. -/
def isNormalizedVal : GoValue → Bool
  | .goMap entries => distinctKeys entries && pairsNormalized entries
  | .bsonM _ => false
  | .sliceAny elems => elemsNormalized elems
  | _ => true

/-- Entry list of a fully-normalized map: keys fixed by `toPascalCase`,
values fully normalized. -/
def pairsNormalized : List (String × GoValue) → Bool
  | [] => true
  | (k, v) :: rest => (toPascalCase k == k) && isNormalizedVal v && pairsNormalized rest

/-- Element list of a fully-normalized `[]any`. -/
def elemsNormalized : List GoValue → Bool
  | [] => true
  | v :: rest => isNormalizedVal v && elemsNormalized rest

end

theorem fieldsAux_sep {c : Char} (hc : isSepChar c = true) :
    ∀ (xs ys acc : List Char),
      fieldsAux acc (xs ++ c :: ys) = fieldsAux acc xs ++ fieldsAux [] ys := by
  intro xs
  induction xs with
  | nil =>
    intro ys acc
    cases acc <;> simp [fieldsAux, hc]
  | cons x xs ih =>
    intro ys acc
    by_cases hx : isSepChar x = true
    · cases acc <;> simp [fieldsAux, hx, ih]
    · simp only [List.cons_append, fieldsAux, hx]
      simp [ih]

/-- Splitting at a separator character concatenates the segment lists: this
is the characterizing law behind "word boundaries are underscore, hyphen and
space; consecutive separators collapse; leading/trailing separators yield no
empty segment". -/
theorem fieldsChars_sep {c : Char} (hc : isSepChar c = true) (xs ys : List Char) :
    fieldsChars (xs ++ c :: ys) = fieldsChars xs ++ fieldsChars ys :=
  fieldsAux_sep hc xs ys []

theorem fieldsAux_segments :
    ∀ (cs acc : List Char), (∀ ch ∈ acc, isSepChar ch = false) →
      ∀ seg ∈ fieldsAux acc cs, seg ≠ [] ∧ ∀ ch ∈ seg, isSepChar ch = false := by
  intro cs
  induction cs with
  | nil =>
    intro acc hacc seg hseg
    cases acc with
    | nil => simp [fieldsAux] at hseg
    | cons a as =>
      simp [fieldsAux] at hseg
      subst hseg
      refine ⟨by simp, ?_⟩
      intro ch hch
      rcases List.mem_append.mp hch with h | h
      · exact hacc ch (List.mem_cons_of_mem _ (List.mem_reverse.mp h))
      · rw [List.mem_singleton.mp h]
        exact hacc a (List.mem_cons_self a as)
  | cons x xs ih =>
    intro acc hacc seg hseg
    by_cases hx : isSepChar x = true
    · cases acc with
      | nil =>
        simp only [fieldsAux, hx, if_true] at hseg
        exact ih [] (by simp) seg hseg
      | cons a as =>
        simp only [fieldsAux, hx, if_true] at hseg
        rcases List.mem_cons.mp hseg with h | h
        · subst h
          refine ⟨by simp, ?_⟩
          intro ch hch
          rw [List.reverse_cons] at hch
          rcases List.mem_append.mp hch with h2 | h2
          · exact hacc ch (List.mem_cons_of_mem _ (List.mem_reverse.mp h2))
          · rw [List.mem_singleton.mp h2]
            exact hacc a (List.mem_cons_self a as)
        · exact ih [] (by simp) seg h
    · simp only [fieldsAux, hx] at hseg
      refine ih (x :: acc) ?_ seg (by simpa using hseg)
      intro ch hch
      rcases List.mem_cons.mp hch with h | h
      · subst h; simpa using hx
      · exact hacc ch h

/-- Every segment `strings.FieldsFunc` emits is nonempty and contains no
separator character. -/
theorem fieldsChars_segments (cs : List Char) :
    ∀ seg ∈ fieldsChars cs, seg ≠ [] ∧ ∀ ch ∈ seg, isSepChar ch = false :=
  fieldsAux_segments cs [] (by simp)

theorem fieldsAux_no_sep :
    ∀ (cs acc : List Char), (acc ≠ [] ∨ cs ≠ []) → (∀ ch ∈ cs, isSepChar ch = false) →
      fieldsAux acc cs = [acc.reverse ++ cs] := by
  intro cs
  induction cs with
  | nil =>
    intro acc hne _
    rcases hne with h | h
    · cases acc with
      | nil => exact absurd rfl h
      | cons a as => simp [fieldsAux]
    · exact absurd rfl h
  | cons x xs ih =>
    intro acc _ hsep
    have hx : isSepChar x = false := hsep x (by simp)
    simp only [fieldsAux, hx, Bool.false_eq_true, if_false]
    rw [ih (x :: acc) (Or.inl (by simp)) (fun ch hch => hsep ch (List.mem_cons_of_mem _ hch))]
    simp

/-- A nonempty separator-free string is a single segment. -/
theorem fieldsChars_single (seg : List Char) (hne : seg ≠ [])
    (hsep : ∀ ch ∈ seg, isSepChar ch = false) : fieldsChars seg = [seg] := by
  simpa using fieldsAux_no_sep seg [] (Or.inr hne) hsep

theorem mapInsert_of_fresh (k : String) (v : GoValue) :
    ∀ l : List (String × GoValue), (∀ kv ∈ l, kv.1 ≠ k) → mapInsert k v l = l ++ [(k, v)] := by
  intro l
  induction l with
  | nil => intro _; rfl
  | cons kv rest ih =>
    intro h
    obtain ⟨k', v'⟩ := kv
    have hk : k' ≠ k := h (k', v') (List.mem_cons_self _ _)
    simp [mapInsert, hk, ih fun x hx => h x (List.mem_cons_of_mem _ hx)]

theorem buildMap_go_of_distinct :
    ∀ (pairs acc : List (String × GoValue)),
      distinctKeys pairs = true →
      (∀ kv ∈ pairs, ∀ kv' ∈ acc, kv'.1 ≠ kv.1) →
      pairs.foldl (fun a kv => mapInsert kv.1 kv.2 a) acc = acc ++ pairs := by
  intro pairs
  induction pairs with
  | nil => intro acc _ _; simp
  | cons kv rest ih =>
    intro acc hd hdisj
    simp only [distinctKeys, Bool.and_eq_true, List.all_eq_true] at hd
    obtain ⟨hfresh, hd⟩ := hd
    simp only [List.foldl_cons]
    rw [mapInsert_of_fresh _ _ acc (fun kv' h' => hdisj kv (List.mem_cons_self _ _) kv' h')]
    rw [ih (acc ++ [kv]) hd ?_]
    · simp
    · intro kv'' h'' kv' h'
      rcases List.mem_append.mp h' with h' | h'
      · exact hdisj kv'' (List.mem_cons_of_mem _ h'') kv' h'
      · have : kv' = kv := by simpa using h'
        subst this
        have hne : ¬kv''.1 = kv'.1 := by simpa using hfresh kv'' h''
        exact fun hh => hne hh.symm

/-- Rebuilding an association list with pairwise-distinct keys by successive
Go map assignments returns it unchanged. -/
theorem buildMap_of_distinct (pairs : List (String × GoValue))
    (hd : distinctKeys pairs = true) : buildMap pairs = pairs := by
  simpa [buildMap] using buildMap_go_of_distinct pairs [] hd (by simp)

mutual

/-- Values in fully-normalized form are fixed points of `normalizeKeys`. -/
theorem normalizeKeys_fix : ∀ v : GoValue, isNormalizedVal v = true → normalizeKeys v = v
  | .goMap entries, h => by
    simp only [isNormalizedVal, Bool.and_eq_true] at h
    simp only [normalizeKeys, normalizePairs_fix entries h.2, buildMap_of_distinct entries h.1]
  | .bsonM entries, h => by simp [isNormalizedVal] at h
  | .sliceAny elems, h => by
    simp only [isNormalizedVal] at h
    simp only [normalizeKeys, normalizeElems_fix elems h]
  | .vnil, _ => rfl
  | .vstr _, _ => rfl
  | .vint _, _ => rfl
  | .vbool _, _ => rfl
  | .bsonD _, _ => rfl
  | .bsonA _, _ => rfl
  | .sliceD _, _ => rfl
  | .sliceM _, _ => rfl
  | .sliceOther _, _ => rfl
  | .structVal _, _ => rfl

/-- Entry lists in fully-normalized form are fixed points of the key/value
rewriting loop. -/
theorem normalizePairs_fix :
    ∀ entries : List (String × GoValue), pairsNormalized entries = true →
      normalizePairs entries = entries
  | [], _ => rfl
  | (k, v) :: rest, h => by
    simp only [pairsNormalized, Bool.and_eq_true, beq_iff_eq] at h
    simp only [normalizePairs, h.1.1, normalizeKeys_fix v h.1.2, normalizePairs_fix rest h.2]

/-- Element lists in fully-normalized form are fixed points of the element
rewriting loop. -/
theorem normalizeElems_fix :
    ∀ elems : List GoValue, elemsNormalized elems = true → normalizeElems elems = elems
  | [], _ => rfl
  | v :: rest, h => by
    simp only [elemsNormalized, Bool.and_eq_true] at h
    simp only [normalizeElems, normalizeKeys_fix v h.1, normalizeElems_fix rest h.2]

end

/-- C1: if the update payload is classified as a pipeline or as an operator
document, `prepareUpdateDocument` returns exactly the input value with no
error, so operator documents are never double-wrapped and pipelines pass
through as-is. -/
theorem claim1_pass_through (v : GoValue)
    (h : isPipelineUpdate v = true ∨ updateDocumentHasOperator v = true) :
    prepareUpdateDocument v = .ok v := by
  have hb : (isPipelineUpdate v || updateDocumentHasOperator v) = true := by
    rcases h with h | h <;> simp [h]
  cases v
  case vnil => simp [isPipelineUpdate, updateDocumentHasOperator] at hb
  all_goals simp [prepareUpdateDocument, hb]

/-- C1 witness: the operator document from the spec example is returned
unchanged, and so is a two-stage pipeline. -/
theorem claim1_pass_through_witness :
    prepareUpdateDocument (.bsonM [("$set", .bsonM [("name", .vstr "Alice")])]) =
      .ok (.bsonM [("$set", .bsonM [("name", .vstr "Alice")])]) ∧
    prepareUpdateDocument (.sliceAny [.goMap [("$match", .vnil)], .goMap [("$group", .vnil)]]) =
      .ok (.sliceAny [.goMap [("$match", .vnil)], .goMap [("$group", .vnil)]]) :=
  ⟨claim1_pass_through _ (Or.inr (by decide)), claim1_pass_through _ (Or.inl (by decide))⟩

/-- C2: for a plain unordered string-keyed map (either a `map[string]any` or
a `bson.M`) none of whose top-level keys begins with `$`,
`prepareUpdateDocument` succeeds with a map whose single key is `$set` and
whose value is exactly the input, so unwrapping at `$set` returns the input. -/
theorem claim2_set_wrap (entries : List (String × GoValue))
    (h : entries.all (fun kv => !startsWithDollar kv.1) = true) :
    prepareUpdateDocument (.goMap entries) = .ok (.bsonM [("$set", .goMap entries)]) ∧
    getKey [("$set", GoValue.goMap entries)] "$set" = some (.goMap entries) ∧
    prepareUpdateDocument (.bsonM entries) = .ok (.bsonM [("$set", .bsonM entries)]) ∧
    getKey [("$set", GoValue.bsonM entries)] "$set" = some (.bsonM entries) := by
  have hop : entries.any (fun kv => startsWithDollar kv.1) = false := by
    rw [List.any_eq_false]
    intro kv hkv
    simpa using List.all_eq_true.mp h kv hkv
  refine ⟨?_, rfl, ?_, rfl⟩ <;>
    simp [prepareUpdateDocument, isPipelineUpdate, updateDocumentHasOperator,
      hasOperatorInKeysMap, hasOperatorInKeysM, hop]

/-- C2 witness: the spec example map is wrapped as a single `$set` document
and unwraps back to itself. -/
theorem claim2_set_wrap_witness :
    prepareUpdateDocument (.goMap [("name", .vstr "Alice"), ("age", .vint 30)]) =
      .ok (.bsonM [("$set", .goMap [("name", .vstr "Alice"), ("age", .vint 30)])]) ∧
    getKey [("$set", GoValue.goMap [("name", .vstr "Alice"), ("age", .vint 30)])] "$set" =
      some (.goMap [("name", .vstr "Alice"), ("age", .vint 30)]) :=
  ⟨(claim2_set_wrap [("name", .vstr "Alice"), ("age", .vint 30)] (by decide)).1,
   (claim2_set_wrap [("name", .vstr "Alice"), ("age", .vint 30)] (by decide)).2.1⟩

/-- C3 counterexample: a Go slice whose element type is not one of the four
types named in the switch (for example a `[]string` value) has sequence
shape, yet `isPipelineUpdate` returns false on it — refuting "true for every
sequence input regardless of element type". -/
theorem claim3_counterexample :
    isSequenceShape (.sliceOther [.vstr "x"]) = true ∧
    isPipelineUpdate (.sliceOther [.vstr "x"]) = false :=
  ⟨rfl, rfl⟩

/-- C3 (amended): `isPipelineUpdate` returns true exactly when the dynamic
type of the value is `[]bson.D`, `[]bson.M`, `[]any` or `bson.A`; maps,
scalars and slices of any other element type yield false. -/
theorem claim3_amended : ∀ v : GoValue,
    isPipelineUpdate v = true ↔
      ((∃ e, v = .sliceD e) ∨ (∃ e, v = .sliceM e) ∨
       (∃ e, v = .sliceAny e) ∨ (∃ e, v = .bsonA e)) := by
  intro v
  cases v <;> simp [isPipelineUpdate]

/-- Checking a predicate on the projected key list is the same as checking it
on the first components directly. -/
theorem anyMapFst (l : List (String × GoValue)) (p : String → Bool) :
    (l.map Prod.fst).any p = l.any fun kv => p kv.1 := by
  induction l with
  | nil => rfl
  | cons kv rest ih => simp [ih]

/-- C4: `updateDocumentHasOperator` agrees everywhere with the spec predicate
"the value is a string-keyed map or an ordered key-value sequence with some
top-level key beginning with `$`", and on the three document shapes its
result is a function of the top-level key list alone, so nested documents
are never inspected. -/
theorem claim4_operator_detection :
    (∀ v, updateDocumentHasOperator v = specHasTopLevelOperator v) ∧
    (∀ elems, updateDocumentHasOperator (.bsonD elems) =
        (elems.map Prod.fst).any startsWithDollar) ∧
    (∀ entries, updateDocumentHasOperator (.bsonM entries) =
        (entries.map Prod.fst).any startsWithDollar) ∧
    (∀ entries, updateDocumentHasOperator (.goMap entries) =
        (entries.map Prod.fst).any startsWithDollar) := by
  refine ⟨fun v => by cases v <;> rfl, fun elems => ?_, fun entries => ?_, fun entries => ?_⟩ <;>
    simp [updateDocumentHasOperator, hasOperatorInKeysD, hasOperatorInKeysM,
      hasOperatorInKeysMap, anyMapFst]

/-- C5: a nil update payload fails with the invalid-argument error whose
message is "update document cannot be nil" and produces no output value, and
every error the function can return is either that error (only for nil) or a
serialization error from the marshal fallback. -/
theorem claim5_error_modes :
    prepareUpdateDocument .vnil = .error (.invalidArgument "update document cannot be nil") ∧
    ∀ v e, prepareUpdateDocument v = .error e →
      (v = .vnil ∧ e = .invalidArgument "update document cannot be nil") ∨
      ∃ msg, e = .serializationError msg := by
  refine ⟨rfl, ?_⟩
  intro v e h
  cases v
  case vnil =>
    left
    exact ⟨rfl, by simpa [prepareUpdateDocument] using h.symm⟩
  case vstr s =>
    right
    exact ⟨_, by simpa [prepareUpdateDocument, isPipelineUpdate,
      updateDocumentHasOperator, bsonMarshalDoc] using h.symm⟩
  case vint n =>
    right
    exact ⟨_, by simpa [prepareUpdateDocument, isPipelineUpdate,
      updateDocumentHasOperator, bsonMarshalDoc] using h.symm⟩
  case vbool b =>
    right
    exact ⟨_, by simpa [prepareUpdateDocument, isPipelineUpdate,
      updateDocumentHasOperator, bsonMarshalDoc] using h.symm⟩
  case sliceOther elems =>
    right
    exact ⟨_, by simpa [prepareUpdateDocument, isPipelineUpdate,
      updateDocumentHasOperator, bsonMarshalDoc] using h.symm⟩
  case bsonA elems =>
    simp [prepareUpdateDocument, isPipelineUpdate, updateDocumentHasOperator] at h
  case sliceD elems =>
    simp [prepareUpdateDocument, isPipelineUpdate, updateDocumentHasOperator] at h
  case sliceM elems =>
    simp [prepareUpdateDocument, isPipelineUpdate, updateDocumentHasOperator] at h
  case sliceAny elems =>
    simp [prepareUpdateDocument, isPipelineUpdate, updateDocumentHasOperator] at h
  case structVal fields =>
    simp [prepareUpdateDocument, isPipelineUpdate, updateDocumentHasOperator,
      bsonMarshalDoc] at h
  case bsonD elems =>
    rcases hb : hasOperatorInKeysD elems with _ | _ <;>
      simp [prepareUpdateDocument, isPipelineUpdate, updateDocumentHasOperator, hb] at h
  case bsonM entries =>
    rcases hb : hasOperatorInKeysM entries with _ | _ <;>
      simp [prepareUpdateDocument, isPipelineUpdate, updateDocumentHasOperator, hb] at h
  case goMap entries =>
    rcases hb : hasOperatorInKeysMap entries with _ | _ <;>
      simp [prepareUpdateDocument, isPipelineUpdate, updateDocumentHasOperator, hb] at h

/-- C5 witness: applying the error classification to the nil payload and to a
scalar payload (whose marshal step fails). -/
theorem claim5_error_modes_witness :
    ((GoValue.vnil = GoValue.vnil ∧
        PrepError.invalidArgument "update document cannot be nil" =
          .invalidArgument "update document cannot be nil") ∨
      ∃ msg, PrepError.invalidArgument "update document cannot be nil" =
        .serializationError msg) ∧
    ((GoValue.vstr "x" = GoValue.vnil ∧
        PrepError.serializationError "failed to marshal update document" =
          .invalidArgument "update document cannot be nil") ∨
      ∃ msg, PrepError.serializationError "failed to marshal update document" =
        .serializationError msg) :=
  ⟨claim5_error_modes.2 .vnil _ rfl, claim5_error_modes.2 (.vstr "x") _ rfl⟩

/-- C6: for every entry of the acronym table the converter maps the bare word
to exactly its acronym and maps "prefix_" followed by the word to a string
ending with the acronym; in particular the three concrete conversions from
the spec hold. -/
theorem claim6_acronyms :
    (knownAcronyms.all fun p =>
        (toPascalCase p.1 == p.2) &&
          p.2.data.isSuffixOf (toPascalCase ("prefix_" ++ p.1)).data) = true ∧
    toPascalCase "user_id" = "UserID" ∧
    toPascalCase "tls_config" = "TLSConfig" ∧
    toPascalCase "server_api_version" = "ServerAPIVersion" :=
  ⟨by decide, by decide, by decide, by decide⟩

/-- C7: the case converter maps the empty string to the empty string; it is
the concatenation of the processed segments; segmentation splits exactly at
underscore, hyphen and space (splitting at a separator concatenates the
segment lists, so consecutive separators collapse and leading or trailing
separators produce no segment); every segment is nonempty and separator-free
and a nonempty separator-free string is one whole segment; a segment is
replaced by the table acronym when its lowercased form is a table entry and
otherwise fully lowercased with only its first character re-capitalized — so
the mixed-case single segment "apiKey" becomes "Apikey". -/
theorem claim7_segmentation :
    toPascalCase "" = "" ∧
    (∀ cs : List Char, toPascalCaseChars cs = ((fieldsChars cs).map processSegment).flatten) ∧
    (∀ c, isSepChar c = true ↔ (c = '_' ∨ c = '-' ∨ c = ' ')) ∧
    (∀ xs ys : List Char, ∀ c, isSepChar c = true →
        fieldsChars (xs ++ c :: ys) = fieldsChars xs ++ fieldsChars ys) ∧
    (∀ cs : List Char, ∀ seg ∈ fieldsChars cs, seg ≠ [] ∧ ∀ ch ∈ seg, isSepChar ch = false) ∧
    (∀ seg : List Char, seg ≠ [] → (∀ ch ∈ seg, isSepChar ch = false) →
        fieldsChars seg = [seg]) ∧
    (∀ seg r, lookupAcronym (String.mk (seg.map Char.toLower)) = some r →
        processSegment seg = r.data) ∧
    (∀ c cs, lookupAcronym (String.mk (Char.toLower c :: cs.map Char.toLower)) = none →
        processSegment (c :: cs) = Char.toUpper (Char.toLower c) :: cs.map Char.toLower) ∧
    toPascalCase "apiKey" = "Apikey" := by
  refine ⟨by decide, ?_, ?_, ?_, ?_, ?_, ?_, ?_, by decide⟩
  · intro cs
    cases cs <;> rfl
  · intro c
    constructor
    · intro h
      simp only [isSepChar, Bool.or_eq_true, beq_iff_eq] at h
      tauto
    · intro h
      rcases h with h | h | h <;> simp [isSepChar, h]
  · intro xs ys c hc
    exact fieldsChars_sep hc xs ys
  · exact fun cs => fieldsChars_segments cs
  · exact fun seg => fieldsChars_single seg
  · intro seg r h
    simp [processSegment, h]
  · intro c cs h
    simp [processSegment, h]

/-- C7 witness: the segmentation laws applied at concrete inputs — splitting
"a_b" at the underscore, the single segment "a", and the acronym segment
"api". -/
theorem claim7_segmentation_witness :
    fieldsChars ['a', '_', 'b'] = fieldsChars ['a'] ++ fieldsChars ['b'] ∧
    fieldsChars ['a'] = [['a']] ∧
    processSegment ['a', 'p', 'i'] = ['A', 'P', 'I'] := by
  obtain ⟨-, -, -, hsep, -, hsingle, hacr, -, -⟩ := claim7_segmentation
  exact ⟨hsep ['a'] ['b'] '_' (by decide),
    hsingle ['a'] (by decide) (by decide),
    hacr ['a', 'p', 'i'] "API" (by decide)⟩

/-- C8 counterexample: the map with the single key "snake_case" normalizes to
a map whose key "SnakeCase" is PascalCase and collides with no acronym-table
entry, yet applying the normalizer a second time changes the map again, to
key "Snakecase" — so the normalizer is not idempotent on already-normalized
PascalCase maps without acronym collisions. -/
theorem claim8_counterexample :
    normalizeKeys (.goMap [("snake_case", .vstr "1")]) = .goMap [("SnakeCase", .vstr "1")] ∧
    isPascalCaseKey "SnakeCase" = true ∧
    lookupAcronym "snakecase" = none ∧
    lookupAcronym "snake" = none ∧
    lookupAcronym "case" = none ∧
    normalizeKeys (normalizeKeys (.goMap [("snake_case", .vstr "1")])) =
      .goMap [("Snakecase", .vstr "1")] ∧
    normalizeKeys (normalizeKeys (.goMap [("snake_case", .vstr "1")])) ≠
      normalizeKeys (.goMap [("snake_case", .vstr "1")]) := by
  refine ⟨rfl, by decide, by decide, by decide, by decide, rfl, ?_⟩
  show GoValue.goMap [("Snakecase", .vstr "1")] ≠ GoValue.goMap [("SnakeCase", .vstr "1")]
  simp

/-- C8 (amended): the key normalizer recurses into nested maps as in the spec
example, and it is idempotent exactly on maps in fully-normalized form —
pairwise-distinct keys that are fixed points of the case converter with
recursively fully-normalized values: such values are returned unchanged, so
a second application is a no-op. On other already-normalized maps (keys such
as "SnakeCase" produced from "snake_case") a second application rewrites the
keys again. -/
theorem claim8_amended :
    (∀ v, isNormalizedVal v = true →
        normalizeKeys v = v ∧ normalizeKeys (normalizeKeys v) = normalizeKeys v) ∧
    normalizeKeys (.goMap [("server_api_options", .goMap [("server_api_version", .vstr "1")])]) =
      .goMap [("ServerAPIOptions", .goMap [("ServerAPIVersion", .vstr "1")])] := by
  refine ⟨?_, rfl⟩
  intro v h
  have h1 := normalizeKeys_fix v h
  exact ⟨h1, by rw [h1]; exact h1⟩

/-- C8 witness: a concrete fully-normalized nested map is a fixed point of
the normalizer. -/
theorem claim8_amended_witness :
    normalizeKeys (.goMap [("Name", .goMap [("Timeout", .vint 5)])]) =
      .goMap [("Name", .goMap [("Timeout", .vint 5)])] :=
  (claim8_amended.1 (.goMap [("Name", .goMap [("Timeout", .vint 5)])]) (by decide)).1

/-- C9: the `bson.A` wrapping arm of `prepareUpdateDocument` is dead code —
every `bson.A` value is already classified as a pipeline, so the function
returns it unchanged and never produces the `$set`-wrapped document that arm
would build. -/
theorem claim9_bsonA_arm_unreachable :
    ∀ elems : List GoValue,
      isPipelineUpdate (.bsonA elems) = true ∧
      prepareUpdateDocument (.bsonA elems) = .ok (.bsonA elems) ∧
      prepareUpdateDocument (.bsonA elems) ≠ .ok (.bsonM [("$set", .bsonA elems)]) := by
  intro elems
  refine ⟨rfl, rfl, ?_⟩
  intro h
  simp [prepareUpdateDocument, isPipelineUpdate] at h

/-- C10: key normalization can merge distinct keys — "user_id" and "user id"
both normalize to "UserID", so a two-entry map collapses to one entry and
the value stored under the key that was reached first is silently
discarded. -/
theorem claim10_key_merging :
    normalizeKeys (.goMap [("user_id", .vstr "a"), ("user id", .vstr "b")]) =
      .goMap [("UserID", .vstr "b")] ∧
    ("user_id" : String) ≠ "user id" ∧
    toPascalCase "user_id" = toPascalCase "user id" ∧
    [("user_id", GoValue.vstr "a"), ("user id", GoValue.vstr "b")].length = 2 ∧
    [("UserID", GoValue.vstr "b")].length = 1 :=
  ⟨rfl, by decide, by decide, rfl, rfl⟩

end XK6Mongo
